import Mathlib

/-!
Shallow embedding of the DDP solver of the NMPC repository
(package `nmpc_ddp`, header `include/noc_ddp/DDP.h`).

The repository sources at hand contain the class declarations, the member
buffers and the `Configuration` defaults (`DDP.h`); the bodies of
`solve`, `procOnce`, `backwardPass` and `forwardPass` are in `DDP.hpp`,
which is included by the header but is not among the sources.  Wherever a
definition embeds code of the missing `DDP.hpp`, its doc comment starts
with `Modelled from the spec:` and the definition follows the
specification's description of that routine.

C++ `double` arithmetic is embedded as exact rational arithmetic (`ℚ`);
vectors of state and input dimension are functions out of `Fin n`,
matrices are Mathlib matrices over `ℚ`.  Two operations of the solver
have irrational results and are therefore abstracted as parameters of the
driver (fields of `Env`): the Euclidean norm used by the convergence test
(a square root) and the base-10 exponential that turns the stored
`alpha_list` exponents into line-search step sizes.  Wall-clock timings
(the `duration_*` fields of `TraceData`) are outside the model and are
omitted.
-/

namespace NOC

/-- Vector of dimension `n` (Eigen `Matrix<double, n, 1>`). -/
abbrev Vec (n : ℕ) := Fin n → ℚ

/-- Matrix of dimension `n × m` (Eigen `Matrix<double, n, m>`). -/
abbrev Mat (n m : ℕ) := Matrix (Fin n) (Fin m) ℚ

/-- `Eigen::VectorXd::LinSpaced(size, low, high)`: `size` equally spaced
values from `low` to `high`. -/
def linSpaced (size : ℕ) (low high : ℚ) : List ℚ :=
  (List.range size).map (fun i => low + (high - low) * i / (size - 1))

/-- Symmetrization `½ (A + Aᵀ)` applied to the value Hessian. -/
def symmetrize {k : ℕ} (A : Mat k k) : Mat k k :=
  (1 / 2 : ℚ) • (A + A.transpose)

/-- `std::vector::resize(k)`: keep the first `k` elements, append
default-constructed elements when growing. -/
def listResize {α : Type} (l : List α) (k : ℕ) (dflt : α) : List α :=
  l.take k ++ List.replicate (k - l.length) dflt

/-- `DDPSolver::Configuration` (`DDP.h`, lines 190–236).  The default
values are the member initializers of the source.  `alpha_list` stores
`Eigen::VectorXd::LinSpaced(11, 0, -3)` exactly as in the header: these
entries are the base-10 exponents of the line-search step sizes, so the
induced schedule `10^e` is geometric from `1` down to `10⁻³`. -/
structure Configuration where
  verbose_print : Bool := true
  use_state_eq_second_derivative : Bool := false
  max_iter : ℕ := 500
  horizon_steps : ℕ := 100
  reg_type : ℕ := 1
  initial_lambda : ℚ := 1 / 1000000
  initial_dlambda : ℚ := 1
  lambda_factor : ℚ := 16 / 10
  lambda_min : ℚ := 1 / 1000000
  lambda_max : ℚ := 10000000000
  k_rel_norm_thre : ℚ := 1 / 10000
  lambda_thre : ℚ := 1 / 100000
  alpha_list : List ℚ := linSpaced 11 0 (-3)
  cost_update_ratio_thre : ℚ := 0
  cost_update_thre : ℚ := 1 / 10000000

/-- The default-constructed configuration. -/
def defaultConfig : Configuration := {}

/-- `DDPSolver::TraceData` (`DDP.h`, lines 294–331), without the
wall-clock `duration_*` fields. -/
structure TraceData where
  iter : ℕ := 0
  cost : ℚ := 0
  lambda : ℚ := 0
  dlambda : ℚ := 0
  alpha : ℚ := 0
  k_rel_norm : ℚ := 0
  cost_update_actual : ℚ := 0
  cost_update_expected : ℚ := 0
  cost_update_ratio : ℚ := 0

/-- `DDPSolver::Derivative` (`DDP.h`, lines 239–291): per-stage cache of
first/second derivatives.  The rank-3 tensors `Fxx`, `Fuu`, `Fxu` are
ordered sequences of slices. -/
structure Derivative (n m : ℕ) where
  Fx : Mat n n := 0
  Fu : Mat n m := 0
  Fxx : List (Mat n n) := []
  Fuu : List (Mat m m) := []
  Fxu : List (Mat n m) := []
  Lx : Vec n := 0
  Lu : Vec m := 0
  Lxx : Mat n n := 0
  Luu : Mat m m := 0
  Lxu : Mat n m := 0

/-- `Derivative::setStateDim` (`DDP.h`, lines 255–260): resize the three
second-order tensors to `state_dim` slices. -/
def Derivative.setStateDim {n m : ℕ} (d : Derivative n m) (state_dim : ℕ) :
    Derivative n m :=
  { d with
    Fxx := listResize d.Fxx state_dim 0
    Fuu := listResize d.Fuu state_dim 0
    Fxu := listResize d.Fxu state_dim 0 }

/-- `DDPProblem` (`DDP.h`, lines 16–154): the abstract problem
capability.  Each virtual method is a field; the `calc*Deriv` methods
are split into one field per output they populate.  The second
derivatives of the state equation are rank-3: one slice per state
dimension. -/
structure Problem (n m : ℕ) where
  stateEq : Vec n → Vec m → Vec n
  runningCost : Vec n → Vec m → ℚ
  terminalCost : Vec n → ℚ
  stateEqDerivX : Vec n → Vec m → Mat n n
  stateEqDerivU : Vec n → Vec m → Mat n m
  stateEqDerivXX : Vec n → Vec m → Fin n → Mat n n
  stateEqDerivUU : Vec n → Vec m → Fin n → Mat m m
  stateEqDerivXU : Vec n → Vec m → Fin n → Mat n m
  runningCostDerivX : Vec n → Vec m → Vec n
  runningCostDerivU : Vec n → Vec m → Vec m
  runningCostDerivXX : Vec n → Vec m → Mat n n
  runningCostDerivUU : Vec n → Vec m → Mat m m
  runningCostDerivXU : Vec n → Vec m → Mat n m
  terminalCostDerivX : Vec n → Vec n
  terminalCostDerivXX : Vec n → Mat n n

/-- Modelled from the spec: derivative-cache refresh (§4.2, body in the
missing `DDP.hpp`).  All first-order and cost partials are always
evaluated; the three second-order dynamics tensors are filled (with one
slice per state dimension) only when
`use_state_eq_second_derivative` is enabled, and are left empty
otherwise. -/
def calcDerivative {n m : ℕ} (cfg : Configuration) (pr : Problem n m)
    (x : Vec n) (u : Vec m) : Derivative n m :=
  { Fx := pr.stateEqDerivX x u
    Fu := pr.stateEqDerivU x u
    Fxx := if cfg.use_state_eq_second_derivative then
             List.ofFn (pr.stateEqDerivXX x u) else []
    Fuu := if cfg.use_state_eq_second_derivative then
             List.ofFn (pr.stateEqDerivUU x u) else []
    Fxu := if cfg.use_state_eq_second_derivative then
             List.ofFn (pr.stateEqDerivXU x u) else []
    Lx := pr.runningCostDerivX x u
    Lu := pr.runningCostDerivU x u
    Lxx := pr.runningCostDerivXX x u
    Luu := pr.runningCostDerivUU x u
    Lxu := pr.runningCostDerivXU x u }

/-- The derivative caches of all stages `t ∈ [0, N)`, evaluated at the
committed trajectory (stage `t` uses `x[t]`, `u[t]`). -/
def derivList {n m : ℕ} (cfg : Configuration) (pr : Problem n m)
    (xs : List (Vec n)) (us : List (Vec m)) : List (Derivative n m) :=
  List.zipWith (calcDerivative cfg pr) xs us

/-! ### Backward pass -/

/-- The stage action-value quadratic model `(Qx, Qu, Qxx, Quu, Qxu)`. -/
structure QModel (n m : ℕ) where
  Qx : Vec n
  Qu : Vec m
  Qxx : Mat n n
  Quu : Mat m m
  Qxu : Mat n m

/-- Contraction of a rank-3 tensor (list of `n` slices) with
`Vx ∈ ℝ^n`: the weighted sum of the slices. -/
def tensContract {n a b : ℕ} (Vx : Vec n) (T : List (Mat a b)) : Mat a b :=
  ∑ i : Fin n, Vx i • T.getD i 0

/-- Modelled from the spec: step 1 of the backward pass (§4.3, body in
the missing `DDP.hpp`): form the stage action-value quadratic model,
augmenting the second-order blocks with the tensor contractions when
second-order dynamics are enabled. -/
def calcQ {n m : ℕ} (cfg : Configuration) (d : Derivative n m)
    (Vx : Vec n) (Vxx : Mat n n) : QModel n m :=
  { Qx := d.Lx + d.Fx.transpose.mulVec Vx
    Qu := d.Lu + d.Fu.transpose.mulVec Vx
    Qxx := d.Lxx + d.Fx.transpose * Vxx * d.Fx +
      (if cfg.use_state_eq_second_derivative then tensContract Vx d.Fxx else 0)
    Quu := d.Luu + d.Fu.transpose * Vxx * d.Fu +
      (if cfg.use_state_eq_second_derivative then tensContract Vx d.Fuu else 0)
    Qxu := d.Lxu + d.Fx.transpose * Vxx * d.Fu +
      (if cfg.use_state_eq_second_derivative then tensContract Vx d.Fxu else 0) }

/-- Modelled from the spec: step 2 of the backward pass (§4.3, body in
the missing `DDP.hpp`): the regularized pair `(Q̃uu, Q̃xu)`.  Type 1
shifts `Quu`; type 2 shifts `Vxx` and recomputes both blocks from the
shifted `Ṽxx` (following the spec's wording for the recomputation). -/
def regQ {n m : ℕ} (cfg : Configuration) (lam : ℚ) (d : Derivative n m)
    (Vxx : Mat n n) (Q : QModel n m) : Mat m m × Mat n m :=
  if cfg.reg_type = 1 then
    (Q.Quu + lam • (1 : Mat m m), Q.Qxu)
  else
    let Vxxr := Vxx + lam • (1 : Mat n n)
    (d.Luu + d.Fu.transpose * Vxxr * d.Fu, d.Lxu + d.Fx.transpose * Vxxr * d.Fu)

/-- The matrix whose determinant is the `k`-th leading principal minor:
the leading `(k+1) × (k+1)` block of `A`, padded with the identity
outside the block (padding keeps the index type fixed and does not
change the determinant of the block). -/
def leadMat {m : ℕ} (A : Mat m m) (k : Fin m) : Mat m m :=
  Matrix.of fun i j => if i ≤ k ∧ j ≤ k then A i j else if i = j then 1 else 0

/-- Success of the Cholesky factorization (`Eigen::LLT`) in exact
arithmetic: the symmetric matrix is positive definite, i.e. all leading
principal minors are positive (Sylvester's criterion). -/
def choleskyOK {m : ℕ} (A : Mat m m) : Bool :=
  decide (∀ k : Fin m, 0 < (leadMat A k).det)

/-- Exact solution of `A·x = b` (the use Eigen makes of the Cholesky
factors): `x = det(A)⁻¹ · adj(A) · b`. -/
def cholSolveVec {m : ℕ} (A : Mat m m) (b : Vec m) : Vec m :=
  A.det⁻¹ • A.adjugate.mulVec b

/-- Exact solution of `A·X = B` column by column. -/
def cholSolveMat {m k : ℕ} (A : Mat m m) (B : Mat m k) : Mat m k :=
  A.det⁻¹ • (A.adjugate * B)

/-- Feedforward gain `k = −Q̃uu⁻¹ · Qu` (§4.3 step 4). -/
def stageGainK {m : ℕ} (Quur : Mat m m) (Qu : Vec m) : Vec m :=
  -cholSolveVec Quur Qu

/-- Feedback gain `K = −Q̃uu⁻¹ · Q̃xuᵀ` (§4.3 step 4). -/
def stageGainFB {n m : ℕ} (Quur : Mat m m) (Qxur : Mat n m) : Mat m n :=
  -cholSolveMat Quur Qxur.transpose

/-- Per-stage policy correction: feedforward `k` and feedback `K`. -/
structure Gain (n m : ℕ) where
  k : Vec m
  K : Mat m n

/-- Modelled from the spec: steps 1–4 of one backward-pass stage
(§4.3): form the quadratic model, regularize, and solve for the gains
through the factorization of `Q̃uu`. -/
def stageGain {n m : ℕ} (cfg : Configuration) (lam : ℚ) (d : Derivative n m)
    (Vx : Vec n) (Vxx : Mat n n) : Gain n m :=
  let Q := calcQ cfg d Vx Vxx
  let R := regQ cfg lam d Vxx Q
  ⟨stageGainK R.1 Q.Qu, stageGainFB R.1 R.2⟩

/-- Modelled from the spec: step 5 of the backward pass (§4.3):
`Vx ← Qx + Kᵀ·Qu + Qxu·k + Kᵀ·Quu·k`. -/
def nextVx {n m : ℕ} (Q : QModel n m) (g : Gain n m) : Vec n :=
  Q.Qx + g.K.transpose.mulVec Q.Qu + Q.Qxu.mulVec g.k +
    g.K.transpose.mulVec (Q.Quu.mulVec g.k)

/-- Modelled from the spec: step 5 of the backward pass (§4.3):
`Vxx ← Qxx + Kᵀ·Quu·K + Kᵀ·Qxuᵀ + Qxu·K`, symmetrized. -/
def nextVxx {n m : ℕ} (Q : QModel n m) (g : Gain n m) : Mat n n :=
  symmetrize (Q.Qxx + g.K.transpose * Q.Quu * g.K +
    g.K.transpose * Q.Qxu.transpose + Q.Qxu * g.K)

/-- Modelled from the spec: expected-descent accumulation (§4.3 step 5):
`dV[0] += kᵀ·Qu`, `dV[1] += ½·kᵀ·Quu·k`. -/
def dVstep {n m : ℕ} (Q : QModel n m) (g : Gain n m) (dV : ℚ × ℚ) : ℚ × ℚ :=
  (dV.1 + Matrix.dotProduct g.k Q.Qu,
   dV.2 + 1 / 2 * Matrix.dotProduct g.k (Q.Quu.mulVec g.k))

/-- Modelled from the spec: the backward recursion (§4.3), processing
the given stage caches from the head of the list (the head is the stage
closest to the horizon end).  Returns `none` as soon as one stage's
regularized `Q̃uu` fails the Cholesky factorization. -/
def backwardAux {n m : ℕ} (cfg : Configuration) (lam : ℚ) :
    List (Derivative n m) → Vec n → Mat n n → ℚ × ℚ →
    Option (List (Gain n m) × (ℚ × ℚ))
  | [], _, _, dV => some ([], dV)
  | d :: rest, Vx, Vxx, dV =>
    if choleskyOK (regQ cfg lam d Vxx (calcQ cfg d Vx Vxx)).1 then
      match backwardAux cfg lam rest
          (nextVx (calcQ cfg d Vx Vxx) (stageGain cfg lam d Vx Vxx))
          (nextVxx (calcQ cfg d Vx Vxx) (stageGain cfg lam d Vx Vxx))
          (dVstep (calcQ cfg d Vx Vxx) (stageGain cfg lam d Vx Vxx) dV) with
      | none => none
      | some (gs, dVout) => some (stageGain cfg lam d Vx Vxx :: gs, dVout)
    else none

/-- Modelled from the spec: `DDPSolver::backwardPass` (§4.3, body in the
missing `DDP.hpp`).  Starts at the horizon end with the terminal value
model and `dV = (0, 0)`, iterates from `t = N−1` down to `0`, and
returns the gains in stage order together with the accumulated `dV`; it
returns `none` when some stage is not positive definite. -/
def backwardPass {n m : ℕ} (cfg : Configuration) (lam : ℚ)
    (ds : List (Derivative n m)) (VxN : Vec n) (VxxN : Mat n n) :
    Option (List (Gain n m) × (ℚ × ℚ)) :=
  (backwardAux cfg lam ds.reverse VxN VxxN (0, 0)).map fun r => (r.1.reverse, r.2)

/-! ### Forward pass -/

/-- Candidate buffers filled by a forward rollout: states
`x̃[0..N]`, inputs `ũ[0..N−1]`, per-stage costs
`L[0..N−1]` followed by the terminal cost. -/
structure Cand (n m : ℕ) where
  xs : List (Vec n)
  us : List (Vec m)
  costs : List ℚ

/-- Modelled from the spec: the control law of the forward pass (§4.4):
`ũ[t] = u[t] + α·k[t] + K[t]·(x̃[t] − x[t])`, reading the committed
trajectory and the gains at index `t`. -/
def fpInput {n m : ℕ} (xs : List (Vec n)) (us : List (Vec m))
    (gs : List (Gain n m)) (alpha : ℚ) (xt : Vec n) (t : ℕ) : Vec m :=
  us.getD t 0 + alpha • (gs.getD t ⟨0, 0⟩).k +
    (gs.getD t ⟨0, 0⟩).K.mulVec (xt - xs.getD t 0)

/-- Modelled from the spec: the candidate state recursion of the forward
pass (§4.4): `x̃[0] = current_x` and
`x̃[t+1] = f(x̃[t], ũ[t])` through the problem's state equation. -/
def fpState {n m : ℕ} (pr : Problem n m) (xs : List (Vec n))
    (us : List (Vec m)) (gs : List (Gain n m)) (alpha : ℚ) (x0 : Vec n) :
    ℕ → Vec n
  | 0 => x0
  | t + 1 =>
    let xt := fpState pr xs us gs alpha x0 t
    pr.stateEq xt (fpInput xs us gs alpha xt t)

/-- Modelled from the spec: `DDPSolver::forwardPass` (§4.4, body in the
missing `DDP.hpp`).  Fills the candidate buffers: `N+1` states, `N`
inputs, and the `N` running costs followed by the terminal cost at
`x̃[N]`. -/
def forwardPass {n m : ℕ} (pr : Problem n m) (xs : List (Vec n))
    (us : List (Vec m)) (gs : List (Gain n m)) (alpha : ℚ) (x0 : Vec n)
    (N : ℕ) : Cand n m :=
  { xs := List.ofFn fun t : Fin (N + 1) => fpState pr xs us gs alpha x0 t
    us := List.ofFn fun t : Fin N =>
      fpInput xs us gs alpha (fpState pr xs us gs alpha x0 t) t
    costs := (List.ofFn fun t : Fin N =>
        pr.runningCost (fpState pr xs us gs alpha x0 t)
          (fpInput xs us gs alpha (fpState pr xs us gs alpha x0 t) t)) ++
      [pr.terminalCost (fpState pr xs us gs alpha x0 N)] }

/-! ### Regularization controller, acceptance test, line search -/

/-- Modelled from the spec: regularization increase (§4.6):
`δλ ← max(δλ·lambda_factor, lambda_factor)`,
`λ ← max(λ·δλ, lambda_min)`; returns `(λ, δλ)`. -/
def regIncrease (cfg : Configuration) (lam dlam : ℚ) : ℚ × ℚ :=
  let dlam' := max (dlam * cfg.lambda_factor) cfg.lambda_factor
  (max (lam * dlam') cfg.lambda_min, dlam')

/-- Modelled from the spec: regularization decrease (§4.6):
`δλ ← min(δλ/lambda_factor, 1/lambda_factor)`, `λ ← λ·δλ`, clamped to
`0` when the result falls below `lambda_min`; returns `(λ, δλ)`. -/
def regDecrease (cfg : Configuration) (lam dlam : ℚ) : ℚ × ℚ :=
  let dlam' := min (dlam / cfg.lambda_factor) (1 / cfg.lambda_factor)
  let lam' := lam * dlam'
  (if lam' < cfg.lambda_min then 0 else lam', dlam')

/-- Expected cost decrease `ΔJ_exp = −(α·dV[0] + α²·dV[1])` (§4.5). -/
def costUpdateExpected (dV : ℚ × ℚ) (alpha : ℚ) : ℚ :=
  -(alpha * dV.1 + alpha ^ 2 * dV.2)

/-- Modelled from the spec: the line-search acceptance test (§4.5 step
3).  With `ΔJ_act = J − J̃` and `ΔJ_exp` as above: when `ΔJ_exp > 0`
accept iff `ρ = ΔJ_act/ΔJ_exp > cost_update_ratio_thre`, otherwise
accept iff `ΔJ_act > 0`. -/
def accepted (J Jc : ℚ) (dV : ℚ × ℚ) (alpha thre : ℚ) : Bool :=
  let dJe := costUpdateExpected dV alpha
  let dJa := J - Jc
  if 0 < dJe then decide (thre < dJa / dJe) else decide (0 < dJa)

/-- The ratio recorded in the trace: `ρ = ΔJ_act/ΔJ_exp` when
`ΔJ_exp > 0`, else `sign(ΔJ_act)`. -/
def costUpdateRatio (J Jc : ℚ) (dV : ℚ × ℚ) (alpha : ℚ) : ℚ :=
  let dJe := costUpdateExpected dV alpha
  let dJa := J - Jc
  if 0 < dJe then dJa / dJe
  else if 0 < dJa then 1 else if dJa < 0 then -1 else 0

/-- Modelled from the spec: the line search (§4.5 step 3), traversing
the step-size list in its given order, rolling out each candidate, and
returning the first accepted `(α, candidate)`; `none` when every `α` is
rejected. -/
def lineSearch {n m : ℕ} (roll : ℚ → Cand n m) (acc : ℚ → Cand n m → Bool) :
    List ℚ → Option (ℚ × Cand n m)
  | [] => none
  | a :: rest =>
    let c := roll a
    if acc a c then some (a, c) else lineSearch roll acc rest

/-- `k_rel_norm = max_t ‖k[t]‖ / (‖u[t]‖ + 1)` (§4.5 step 6), for a
supplied norm on input vectors. -/
def kRelNorm {m : ℕ} (normI : Vec m → ℚ) (ks us : List (Vec m)) : ℚ :=
  (List.zipWith (fun k u => normI k / (normI u + 1)) ks us).foldr max 0

/-! ### Iteration driver -/

/-- The environment of a solve: the problem, plus the two operations of
the solver whose exact values are irrational and are therefore supplied
as parameters: the Euclidean norm on input vectors (used by
`k_rel_norm`) and the base-10 exponential `alphaOf` that maps a stored
`alpha_list` exponent to the line-search step size `α = 10^e`. -/
structure Env (n m : ℕ) where
  prob : Problem n m
  normInput : Vec m → ℚ
  alphaOf : ℚ → ℚ

/-- The mutable members of `DDPSolver` (`DDP.h`, lines 365–416):
regularization state, committed trajectory buffers, candidate buffers,
gains, expected descent, and the trace log. -/
structure SolverState (n m : ℕ) where
  lambda : ℚ
  dlambda : ℚ
  x_list : List (Vec n)
  u_list : List (Vec m)
  cost_list : List ℚ
  x_candidate_list : List (Vec n)
  u_candidate_list : List (Vec m)
  cost_candidate_list : List ℚ
  k_list : List (Vec m)
  K_list : List (Mat m n)
  dV : ℚ × ℚ
  trace_data_list : List TraceData

/-- The backward pass as invoked by `procOnce`: stage caches refreshed
at the committed trajectory, terminal value model from the terminal-cost
derivatives at `x[N]`, current regularization coefficient. -/
def backwardOf {n m : ℕ} (cfg : Configuration) (env : Env n m)
    (st : SolverState n m) : Option (List (Gain n m) × (ℚ × ℚ)) :=
  let xN := st.x_list.getD st.u_list.length 0
  backwardPass cfg st.lambda (derivList cfg env.prob st.x_list st.u_list)
    (env.prob.terminalCostDerivX xN) (env.prob.terminalCostDerivXX xN)

/-- The forward rollout as invoked by the line search: start from the
committed `x[0]` (the current state) and roll the closed-loop policy
over the `N = |u|` stages. -/
def rollOf {n m : ℕ} (env : Env n m) (st : SolverState n m)
    (gs : List (Gain n m)) (alpha : ℚ) : Cand n m :=
  forwardPass env.prob st.x_list st.u_list gs alpha (st.x_list.getD 0 0)
    st.u_list.length

/-- The line search as invoked by `procOnce`: traverse the configured
`alpha_list` in its given order (each stored exponent `e` is used as the
step size `α = 10^e`), and return the first accepted candidate. -/
def lineSearchOf {n m : ℕ} (cfg : Configuration) (env : Env n m)
    (st : SolverState n m) (gs : List (Gain n m)) (dV : ℚ × ℚ) :
    Option (ℚ × Cand n m) :=
  lineSearch (rollOf env st gs)
    (fun a c => accepted st.cost_list.sum c.costs.sum dV a
      cfg.cost_update_ratio_thre)
    (cfg.alpha_list.map env.alphaOf)

/-- Modelled from the spec: `DDPSolver::procOnce` (§4.5, body in the
missing `DDP.hpp`; return convention from `DDP.h` lines 349–353:
`0` to continue, `1` to terminate, `-1` on failure).

* Backward failure: no forward pass; increase the regularization, append
  a trace record (`α = 0` sentinel), and fail iff `λ > lambda_max`.
* Accepted step: commit the candidate trajectory, decrease the
  regularization, then terminate successfully iff
  `k_rel_norm < k_rel_norm_thre ∧ λ < lambda_thre` or
  `|ΔJ_act| < cost_update_thre`.
* No accepted step: increase the regularization exactly as on backward
  failure (the candidate buffers keep the rollout of the last tried
  `α`), and fail iff `λ > lambda_max`. -/
def procOnce {n m : ℕ} (cfg : Configuration) (env : Env n m) (iter : ℕ)
    (st : SolverState n m) : Int × SolverState n m :=
  match backwardOf cfg env st with
  | none =>
    let r := regIncrease cfg st.lambda st.dlambda
    let tr : TraceData :=
      { iter := iter, cost := st.cost_list.sum, lambda := r.1, dlambda := r.2 }
    let st' := { st with
      lambda := r.1
      dlambda := r.2
      trace_data_list := st.trace_data_list ++ [tr] }
    (if cfg.lambda_max < r.1 then -1 else 0, st')
  | some (gs, dV) =>
    let J := st.cost_list.sum
    let stG := { st with
      k_list := gs.map Gain.k
      K_list := gs.map Gain.K
      dV := dV }
    match lineSearchOf cfg env st gs dV with
    | some (a, c) =>
      let r := regDecrease cfg st.lambda st.dlambda
      let dJa := J - c.costs.sum
      let krel := kRelNorm env.normInput (gs.map Gain.k) c.us
      let tr : TraceData := {
        iter := iter
        cost := c.costs.sum
        lambda := r.1
        dlambda := r.2
        alpha := a
        k_rel_norm := krel
        cost_update_actual := dJa
        cost_update_expected := costUpdateExpected dV a
        cost_update_ratio := costUpdateRatio J c.costs.sum dV a }
      let done := (krel < cfg.k_rel_norm_thre ∧ r.1 < cfg.lambda_thre) ∨
        |dJa| < cfg.cost_update_thre
      let st' := { stG with
        x_list := c.xs
        u_list := c.us
        cost_list := c.costs
        x_candidate_list := c.xs
        u_candidate_list := c.us
        cost_candidate_list := c.costs
        lambda := r.1
        dlambda := r.2
        trace_data_list := st.trace_data_list ++ [tr] }
      (if done then 1 else 0, st')
    | none =>
      let r := regIncrease cfg st.lambda st.dlambda
      let stC := match (cfg.alpha_list.map env.alphaOf).getLast? with
        | some a =>
          let c := rollOf env st gs a
          { stG with
            x_candidate_list := c.xs
            u_candidate_list := c.us
            cost_candidate_list := c.costs }
        | none => stG
      let tr : TraceData :=
        { iter := iter, cost := J, lambda := r.1, dlambda := r.2 }
      (if cfg.lambda_max < r.1 then -1 else 0,
        { stC with
          lambda := r.1
          dlambda := r.2
          trace_data_list := st.trace_data_list ++ [tr] })

/-- Modelled from the spec: the optimization loop of `DDPSolver::solve`
(§4.5, body in the missing `DDP.hpp`).  Runs `procOnce` while it returns
`0`; returns success on `1`, failure on `-1`, and success with the
current trajectory once the iteration budget is exhausted
(`iter ≥ max_iter`). -/
def solveLoop {n m : ℕ} (cfg : Configuration) (env : Env n m) :
    ℕ → ℕ → SolverState n m → Bool × SolverState n m
  | 0, _, st => (true, st)
  | fuel + 1, iter, st =>
    let r := procOnce cfg env iter st
    if r.1 = 1 then (true, r.2)
    else if r.1 = -1 then (false, r.2)
    else solveLoop cfg env fuel (iter + 1) r.2

/-- The initial rollout of `solve`: apply the seed inputs directly
(`x[t+1] = f(x[t], u[t])`), returning the states and the per-stage costs
(running costs then terminal cost). -/
def initRollout {n m : ℕ} (pr : Problem n m) (x0 : Vec n) :
    List (Vec m) → List (Vec n) × List ℚ
  | [] => ([x0], [pr.terminalCost x0])
  | u :: us =>
    let r := initRollout pr (pr.stateEq x0 u) us
    (x0 :: r.1, pr.runningCost x0 u :: r.2)

/-- Modelled from the spec: the initialization of `DDPSolver::solve`
(§4.5): copy the seed inputs, roll them out to establish `x[·]` and the
costs, and set `λ ← initial_lambda`, `δλ ← initial_dlambda`.  The
horizon is the length of the seed input sequence (the caller supplies
`N` inputs, §6.2). -/
def initState {n m : ℕ} (cfg : Configuration) (pr : Problem n m)
    (x0 : Vec n) (us : List (Vec m)) : SolverState n m :=
  let r := initRollout pr x0 us
  { lambda := cfg.initial_lambda
    dlambda := cfg.initial_dlambda
    x_list := r.1
    u_list := us
    cost_list := r.2
    x_candidate_list := r.1
    u_candidate_list := us
    cost_candidate_list := r.2
    k_list := []
    K_list := []
    dV := (0, 0)
    trace_data_list := [] }

/-- Modelled from the spec: `DDPSolver::solve` (§4.5, body in the
missing `DDP.hpp`): initialize, then iterate at most `max_iter` times. -/
def solve {n m : ℕ} (cfg : Configuration) (env : Env n m) (current_x : Vec n)
    (initial_u : List (Vec m)) : Bool × SolverState n m :=
  solveLoop cfg env cfg.max_iter 1 (initState cfg env.prob current_x initial_u)

/-! ### Concrete instances used by witnesses and counterexamples -/

/-- A scalar linear-quadratic instance: `f(x,u) = x + u`,
`ℓ = x² + u²`, `φ = x²` (state and input dimension 1). -/
def lqProb : Problem 1 1 where
  stateEq := fun x u => x + u
  runningCost := fun x u => x 0 ^ 2 + u 0 ^ 2
  terminalCost := fun x => x 0 ^ 2
  stateEqDerivX := fun _ _ => 1
  stateEqDerivU := fun _ _ => 1
  stateEqDerivXX := fun _ _ _ => 0
  stateEqDerivUU := fun _ _ _ => 0
  stateEqDerivXU := fun _ _ _ => 0
  runningCostDerivX := fun x _ _ => 2 * x 0
  runningCostDerivU := fun _ u _ => 2 * u 0
  runningCostDerivXX := fun _ _ => Matrix.of fun _ _ => 2
  runningCostDerivUU := fun _ _ => Matrix.of fun _ _ => 2
  runningCostDerivXU := fun _ _ => 0
  terminalCostDerivX := fun x _ => 2 * x 0
  terminalCostDerivXX := fun _ => Matrix.of fun _ _ => 2

/-- Environment for `lqProb`.  For input dimension 1 the Euclidean norm
is exactly `|·|`; the step-size list below holds the single exponent
`0`, whose exact power `10^0 = 1` the `alphaOf` field returns. -/
def lqEnv : Env 1 1 where
  prob := lqProb
  normInput := fun v => |v 0|
  alphaOf := fun _ => 1

/-- Configuration for the linear-quadratic instance: defaults except a
short horizon, `λ` started at `0`, and the single step size `10^0`. -/
def lqCfg : Configuration :=
  { max_iter := 3, horizon_steps := 1, initial_lambda := 0, alpha_list := [0] }

/-- The all-ones state vector of dimension 1. -/
def vone : Vec 1 := fun _ => 1

/-- The solver state after initialization of the linear-quadratic
instance with `x₀ = 1` and seed input `u ≡ 0`. -/
def lqSt : SolverState 1 1 := initState lqCfg lqProb vone [0]

/-- The stage gain of the linear-quadratic instance:
`k = −1/2`, `K = −1/2`. -/
def lqGain : Gain 1 1 := ⟨fun _ => -(1 / 2), Matrix.of fun _ _ => -(1 / 2)⟩

/-- The stage-0 derivative cache of the linear-quadratic instance. -/
def lqD : Derivative 1 1 := calcDerivative lqCfg lqProb vone 0

/-- The terminal value gradient of the linear-quadratic instance. -/
def lqVx : Vec 1 := fun _ => 2

/-- The terminal value Hessian of the linear-quadratic instance. -/
def lqVxx : Mat 1 1 := Matrix.of fun _ _ => 2

/-- The expected-descent pair of the linear-quadratic instance. -/
def lqdV : ℚ × ℚ := (-1, 1 / 2)

/-- A degenerate problem whose running cost has `∂²ℓ/∂u² = −1` and all
other derivatives zero: its `Quu` is negative, so the backward pass
fails for any `λ < 1`. -/
def negProb : Problem 1 1 where
  stateEq := fun x _ => x
  runningCost := fun _ _ => 0
  terminalCost := fun _ => 0
  stateEqDerivX := fun _ _ => 0
  stateEqDerivU := fun _ _ => 0
  stateEqDerivXX := fun _ _ _ => 0
  stateEqDerivUU := fun _ _ _ => 0
  stateEqDerivXU := fun _ _ _ => 0
  runningCostDerivX := fun _ _ => 0
  runningCostDerivU := fun _ _ => 0
  runningCostDerivXX := fun _ _ => 0
  runningCostDerivUU := fun _ _ => Matrix.of fun _ _ => -1
  runningCostDerivXU := fun _ _ => 0
  terminalCostDerivX := fun _ => 0
  terminalCostDerivXX := fun _ => 0

/-- Environment for `negProb`. -/
def negEnv : Env 1 1 where
  prob := negProb
  normInput := fun v => |v 0|
  alphaOf := fun _ => 1

/-- A configuration under which one regularization increase overflows:
`λ` starts at `1 = lambda_max`, and one increase with factor `2` yields
`λ = 2 > lambda_max`. -/
def negCfg : Configuration :=
  { max_iter := 1, horizon_steps := 1, initial_lambda := 1,
    initial_dlambda := 1, lambda_factor := 2, lambda_min := 1 / 2,
    lambda_max := 1, alpha_list := [0] }

/-- The solver state after initialization of the overflow instance. -/
def negSt : SolverState 1 1 := initState negCfg negProb 0 [0]

/-- The overflow instance with an empty horizon: its backward pass
trivially succeeds with no gains, and its line search rejects every
step size (the candidate cost never improves). -/
def zSt : SolverState 1 1 := initState negCfg negProb 0 []

/-! ### Helper lemmas -/

lemma leadMat_last {m : ℕ} (A : Mat (m + 1) (m + 1)) :
    leadMat A (Fin.last m) = A := by
  funext i j
  simp [leadMat, Fin.le_last]

lemma det_pos_of_choleskyOK {m : ℕ} (A : Mat (m + 1) (m + 1))
    (h : choleskyOK A = true) : 0 < A.det := by
  have h' := of_decide_eq_true h
  have hl := h' (Fin.last m)
  rwa [leadMat_last] at hl

lemma choleskyOK_one (A : Mat 1 1) : choleskyOK A = decide (0 < A 0 0) := by
  unfold choleskyOK
  rw [decide_eq_decide, Fin.forall_fin_one]
  have he : leadMat A 0 = A := leadMat_last (m := 0) A
  rw [he, Matrix.det_fin_one]

lemma backwardAux_cons_fail {n m : ℕ} (cfg : Configuration) (lam : ℚ)
    (d : Derivative n m) (rest : List (Derivative n m)) (Vx : Vec n)
    (Vxx : Mat n n) (dV : ℚ × ℚ)
    (h : choleskyOK (regQ cfg lam d Vxx (calcQ cfg d Vx Vxx)).1 = false) :
    backwardAux cfg lam (d :: rest) Vx Vxx dV = none := by
  simp [backwardAux, h]

lemma backwardAux_cons_ok {n m : ℕ} (cfg : Configuration) (lam : ℚ)
    (d : Derivative n m) (rest : List (Derivative n m)) (Vx : Vec n)
    (Vxx : Mat n n) (dV : ℚ × ℚ)
    (h : choleskyOK (regQ cfg lam d Vxx (calcQ cfg d Vx Vxx)).1 = true) :
    backwardAux cfg lam (d :: rest) Vx Vxx dV =
      (backwardAux cfg lam rest
        (nextVx (calcQ cfg d Vx Vxx) (stageGain cfg lam d Vx Vxx))
        (nextVxx (calcQ cfg d Vx Vxx) (stageGain cfg lam d Vx Vxx))
        (dVstep (calcQ cfg d Vx Vxx) (stageGain cfg lam d Vx Vxx) dV)).map
        (fun p => (stageGain cfg lam d Vx Vxx :: p.1, p.2)) := by
  rcases hrec : backwardAux cfg lam rest
      (nextVx (calcQ cfg d Vx Vxx) (stageGain cfg lam d Vx Vxx))
      (nextVxx (calcQ cfg d Vx Vxx) (stageGain cfg lam d Vx Vxx))
      (dVstep (calcQ cfg d Vx Vxx) (stageGain cfg lam d Vx Vxx) dV) with
    _ | ⟨gs, dVout⟩ <;>
  simp [backwardAux, h, hrec]

lemma negSt_x : negSt.x_list = [0, 0] := by
  simp [negSt, initState, initRollout, negProb]

lemma neg_backward : backwardOf negCfg negEnv negSt = none := by
  have hR : (regQ negCfg (1 : ℚ) (calcDerivative negCfg negProb 0 0) 0
      (calcQ negCfg (calcDerivative negCfg negProb 0 0) 0 0)).1 =
      Matrix.of fun _ _ : Fin 1 => 0 := by
    funext i j
    simp [regQ, negCfg, calcQ, calcDerivative, negProb, Matrix.one_apply,
      Subsingleton.elim i j]
  have hch : choleskyOK ((regQ negCfg (1 : ℚ) (calcDerivative negCfg negProb 0 0) 0
      (calcQ negCfg (calcDerivative negCfg negProb 0 0) 0 0)).1) = false := by
    rw [hR, choleskyOK_one]
    norm_num
  have hb : backwardOf negCfg negEnv negSt =
      (backwardAux negCfg 1 [calcDerivative negCfg negProb 0 0] 0 0 (0, 0)).map
        (fun r => (r.1.reverse, r.2)) := rfl
  rw [hb, backwardAux_cons_fail negCfg 1 (calcDerivative negCfg negProb 0 0) []
    0 0 (0, 0) hch]
  rfl

lemma lq_x : lqSt.x_list = [vone, vone] := by
  simp [lqSt, initState, initRollout, lqProb, vone]

lemma lqQuu : (calcQ lqCfg lqD lqVx lqVxx).Quu = Matrix.of fun _ _ => 4 := by
  funext i j
  simp [calcQ, lqD, calcDerivative, lqProb, lqCfg, vone, lqVx, lqVxx,
    Matrix.mul_apply, Matrix.transpose_apply, Matrix.one_apply, Matrix.of_apply,
    Fin.sum_univ_one, Subsingleton.elim i j]
  norm_num

lemma lqQu : (calcQ lqCfg lqD lqVx lqVxx).Qu = fun _ => 2 := by
  funext i
  simp [calcQ, lqD, calcDerivative, lqProb, lqCfg, vone, lqVx, lqVxx,
    Matrix.mulVec, Matrix.dotProduct, Matrix.transpose_apply, Matrix.one_apply,
    Matrix.of_apply, Fin.sum_univ_one]

lemma lqQxu : (calcQ lqCfg lqD lqVx lqVxx).Qxu = Matrix.of fun _ _ => 2 := by
  funext i j
  simp [calcQ, lqD, calcDerivative, lqProb, lqCfg, vone, lqVx, lqVxx,
    Matrix.mul_apply, Matrix.transpose_apply, Matrix.one_apply, Matrix.of_apply,
    Fin.sum_univ_one, Subsingleton.elim i j]

lemma lqR1 : (regQ lqCfg 0 lqD lqVxx (calcQ lqCfg lqD lqVx lqVxx)).1 =
    Matrix.of fun _ _ => 4 := by
  have h : regQ lqCfg 0 lqD lqVxx (calcQ lqCfg lqD lqVx lqVxx) =
      ((calcQ lqCfg lqD lqVx lqVxx).Quu + (0 : ℚ) • (1 : Mat 1 1),
        (calcQ lqCfg lqD lqVx lqVxx).Qxu) := by
    simp [regQ, lqCfg]
  rw [h, lqQuu]
  funext i j
  simp [Matrix.of_apply, Matrix.add_apply]

lemma lqR2 : (regQ lqCfg 0 lqD lqVxx (calcQ lqCfg lqD lqVx lqVxx)).2 =
    Matrix.of fun _ _ => 2 := by
  have h : regQ lqCfg 0 lqD lqVxx (calcQ lqCfg lqD lqVx lqVxx) =
      ((calcQ lqCfg lqD lqVx lqVxx).Quu + (0 : ℚ) • (1 : Mat 1 1),
        (calcQ lqCfg lqD lqVx lqVxx).Qxu) := by
    simp [regQ, lqCfg]
  rw [h, lqQxu]

lemma lq_chol : choleskyOK
    ((regQ lqCfg 0 lqD lqVxx (calcQ lqCfg lqD lqVx lqVxx)).1) = true := by
  rw [lqR1, choleskyOK_one]
  norm_num

lemma lq_gain : stageGain lqCfg 0 lqD lqVx lqVxx = lqGain := by
  have hk : stageGainK (Matrix.of fun _ _ : Fin 1 => (4 : ℚ)) (fun _ => 2) =
      lqGain.k := by
    funext i
    simp [stageGainK, cholSolveVec, Matrix.det_fin_one, Matrix.adjugate_fin_one,
      Matrix.one_mulVec, Matrix.of_apply, lqGain]
    norm_num
  have hK : stageGainFB (Matrix.of fun _ _ : Fin 1 => (4 : ℚ))
      (Matrix.of fun _ _ : Fin 1 => (2 : ℚ)) = lqGain.K := by
    funext i j
    simp [stageGainFB, cholSolveMat, Matrix.det_fin_one, Matrix.adjugate_fin_one,
      Matrix.one_mul, Matrix.transpose_apply, Matrix.of_apply, Matrix.smul_apply,
      Matrix.neg_apply, lqGain]
    norm_num
  show (⟨stageGainK (regQ lqCfg 0 lqD lqVxx (calcQ lqCfg lqD lqVx lqVxx)).1
      (calcQ lqCfg lqD lqVx lqVxx).Qu,
    stageGainFB (regQ lqCfg 0 lqD lqVxx (calcQ lqCfg lqD lqVx lqVxx)).1
      (regQ lqCfg 0 lqD lqVxx (calcQ lqCfg lqD lqVx lqVxx)).2⟩ : Gain 1 1) = lqGain
  rw [lqR1, lqR2, lqQu, hk, hK]

lemma lq_dV :
    dVstep (calcQ lqCfg lqD lqVx lqVxx) lqGain (0, 0) = lqdV := by
  rw [dVstep, lqQu, lqQuu]
  simp [Matrix.dotProduct, Matrix.mulVec, Fin.sum_univ_one, lqGain, lqdV,
    Matrix.of_apply]
  norm_num

lemma lq_backward : backwardOf lqCfg lqEnv lqSt = some ([lqGain], lqdV) := by
  have hVx : lqProb.terminalCostDerivX vone = lqVx := by
    funext i
    simp [lqProb, vone, lqVx]
  have hu : lqSt.u_list = [0] := rfl
  have hlam : lqSt.lambda = 0 := rfl
  have hprob : lqEnv.prob = lqProb := rfl
  simp only [backwardOf, hprob, hu, hlam, lq_x]
  have hget : List.getD [vone, vone] (List.length [(0 : Vec 1)]) 0 = vone := rfl
  rw [hget, hVx]
  have hVxx : lqProb.terminalCostDerivXX vone = lqVxx := rfl
  rw [hVxx]
  have hd : derivList lqCfg lqProb [vone, vone] [0] = [lqD] := rfl
  rw [hd]
  show (backwardAux lqCfg 0 [lqD] lqVx lqVxx (0, 0)).map
    (fun r => (r.1.reverse, r.2)) = some ([lqGain], lqdV)
  rw [backwardAux_cons_ok lqCfg 0 lqD [] lqVx lqVxx (0, 0) lq_chol]
  show some ([stageGain lqCfg 0 lqD lqVx lqVxx].reverse,
    dVstep (calcQ lqCfg lqD lqVx lqVxx) (stageGain lqCfg 0 lqD lqVx lqVxx) (0, 0))
    = some ([lqGain], lqdV)
  rw [lq_gain, lq_dV]
  rfl

lemma lq_J : lqSt.cost_list.sum = 2 := by
  have h : lqSt.cost_list =
      [lqProb.runningCost vone 0, lqProb.terminalCost (lqProb.stateEq vone 0)] :=
    rfl
  rw [h]
  simp [lqProb, vone]
  norm_num

lemma lq_x0 : lqSt.x_list.getD 0 0 = vone := by
  rw [lq_x]
  rfl

lemma lq_u0 : fpInput lqSt.x_list lqSt.u_list [lqGain] 1 vone 0 =
    fun _ => -(1 / 2) := by
  funext i
  simp only [fpInput, lq_x]
  have hu : lqSt.u_list = [0] := rfl
  rw [hu]
  simp [lqGain, List.getD, Matrix.mulVec, Matrix.dotProduct, Fin.sum_univ_one,
    Matrix.of_apply, vone]

lemma lq_us : (rollOf lqEnv lqSt [lqGain] 1).us = [fun _ => -(1 / 2)] := by
  show [fpInput lqSt.x_list lqSt.u_list [lqGain] 1
    (fpState lqProb lqSt.x_list lqSt.u_list [lqGain] 1 (lqSt.x_list.getD 0 0) 0)
    0] = _
  show [fpInput lqSt.x_list lqSt.u_list [lqGain] 1 (lqSt.x_list.getD 0 0) 0] = _
  rw [lq_x0, lq_u0]

lemma lq_x1 : lqProb.stateEq vone (fun _ => -(1 / 2)) = fun _ => 1 / 2 := by
  funext i
  simp [lqProb, vone]
  norm_num

lemma lq_roll_costs : (rollOf lqEnv lqSt [lqGain] 1).costs = [5 / 4, 1 / 4] := by
  have hc : (rollOf lqEnv lqSt [lqGain] 1).costs =
      [lqProb.runningCost
        (fpState lqProb lqSt.x_list lqSt.u_list [lqGain] 1 (lqSt.x_list.getD 0 0) 0)
        (fpInput lqSt.x_list lqSt.u_list [lqGain] 1
          (fpState lqProb lqSt.x_list lqSt.u_list [lqGain] 1
            (lqSt.x_list.getD 0 0) 0) 0),
       lqProb.terminalCost
        (fpState lqProb lqSt.x_list lqSt.u_list [lqGain] 1
          (lqSt.x_list.getD 0 0) 1)] := rfl
  rw [hc]
  have h0 : fpState lqProb lqSt.x_list lqSt.u_list [lqGain] 1
      (lqSt.x_list.getD 0 0) 0 = vone := lq_x0
  have h1 : fpState lqProb lqSt.x_list lqSt.u_list [lqGain] 1
      (lqSt.x_list.getD 0 0) 1 = fun _ => 1 / 2 := by
    show lqProb.stateEq
      (fpState lqProb lqSt.x_list lqSt.u_list [lqGain] 1 (lqSt.x_list.getD 0 0) 0)
      (fpInput lqSt.x_list lqSt.u_list [lqGain] 1
        (fpState lqProb lqSt.x_list lqSt.u_list [lqGain] 1
          (lqSt.x_list.getD 0 0) 0) 0) = _
    rw [h0, lq_u0, lq_x1]
  rw [h0, h1, lq_u0]
  simp [lqProb, vone]
  norm_num

lemma lq_Jc : (rollOf lqEnv lqSt [lqGain] 1).costs.sum = 3 / 2 := by
  rw [lq_roll_costs]
  norm_num

lemma z_backward : backwardOf negCfg negEnv zSt = some ([], (0, 0)) := rfl

lemma z_J : zSt.cost_list.sum = 0 := by
  have h : zSt.cost_list = [negProb.terminalCost 0] := rfl
  rw [h]
  simp [negProb]

lemma z_Jc : (rollOf negEnv zSt [] 1).costs.sum = 0 := by
  have h : (rollOf negEnv zSt [] 1).costs =
      [negProb.terminalCost
        (fpState negProb zSt.x_list zSt.u_list [] 1 (zSt.x_list.getD 0 0) 0)] :=
    rfl
  rw [h]
  simp [negProb]

lemma z_ls : lineSearchOf negCfg negEnv zSt [] (0, 0) = none := by
  have hacc : accepted zSt.cost_list.sum (rollOf negEnv zSt [] 1).costs.sum
      (0, 0) 1 negCfg.cost_update_ratio_thre = false := by
    rw [z_J, z_Jc]
    norm_num [accepted, costUpdateExpected]
  show (if accepted zSt.cost_list.sum (rollOf negEnv zSt [] 1).costs.sum
      (0, 0) 1 negCfg.cost_update_ratio_thre
    then some ((1 : ℚ), rollOf negEnv zSt [] 1)
    else lineSearch (rollOf negEnv zSt [])
      (fun a c => accepted zSt.cost_list.sum c.costs.sum (0, 0) a
        negCfg.cost_update_ratio_thre) []) = none
  rw [hacc]
  rfl

lemma neg_reg : regIncrease negCfg 1 1 = (2, 2) := by
  simp [regIncrease, negCfg, max_def]
  norm_num

lemma neg_proc : (procOnce negCfg negEnv 1 negSt).1 = -1 ∧
    (procOnce negCfg negEnv 1 negSt).2.lambda = 2 := by
  have h1 : negSt.lambda = 1 := rfl
  have h2 : negSt.dlambda = 1 := rfl
  constructor <;>
  · simp only [procOnce, neg_backward, h1, h2, neg_reg]
    try norm_num [negCfg]

lemma neg_solve : (solve negCfg negEnv 0 [0]).1 = false ∧
    (solve negCfg negEnv 0 [0]).2.lambda = 2 := by
  have hs : solve negCfg negEnv 0 [0] = solveLoop negCfg negEnv 1 1 negSt := rfl
  have hstep : solveLoop negCfg negEnv 1 1 negSt =
      (false, (procOnce negCfg negEnv 1 negSt).2) := by
    show (if (procOnce negCfg negEnv 1 negSt).1 = 1
        then (true, (procOnce negCfg negEnv 1 negSt).2)
        else if (procOnce negCfg negEnv 1 negSt).1 = -1
          then (false, (procOnce negCfg negEnv 1 negSt).2)
          else solveLoop negCfg negEnv 0 2 (procOnce negCfg negEnv 1 negSt).2) =
      (false, (procOnce negCfg negEnv 1 negSt).2)
    rw [neg_proc.1]
    norm_num
  rw [hs, hstep]
  exact ⟨rfl, neg_proc.2⟩

lemma lq_ls : lineSearchOf lqCfg lqEnv lqSt [lqGain] lqdV =
    some (1, rollOf lqEnv lqSt [lqGain] 1) := by
  have hacc : accepted lqSt.cost_list.sum (rollOf lqEnv lqSt [lqGain] 1).costs.sum
      lqdV 1 lqCfg.cost_update_ratio_thre = true := by
    rw [lq_J, lq_Jc]
    norm_num [accepted, costUpdateExpected, lqdV, lqCfg]
  show (if accepted lqSt.cost_list.sum (rollOf lqEnv lqSt [lqGain] 1).costs.sum
      lqdV 1 lqCfg.cost_update_ratio_thre
    then some ((1 : ℚ), rollOf lqEnv lqSt [lqGain] 1)
    else lineSearch (rollOf lqEnv lqSt [lqGain])
      (fun a c => accepted lqSt.cost_list.sum c.costs.sum lqdV a
        lqCfg.cost_update_ratio_thre) []) =
    some (1, rollOf lqEnv lqSt [lqGain] 1)
  rw [hacc]
  rfl

lemma matInv_eq {k : ℕ} (A : Mat k k) : A⁻¹ = A.det⁻¹ • A.adjugate := by
  rw [Matrix.inv_def, Ring.inverse_eq_inv]

lemma stageGainK_eq_inv {k : ℕ} (A : Mat k k) (b : Vec k) :
    stageGainK A b = -(A⁻¹.mulVec b) := by
  rw [matInv_eq]
  unfold stageGainK cholSolveVec
  rw [Matrix.smul_mulVec_assoc]

lemma stageGainFB_eq_inv {n k : ℕ} (A : Mat k k) (B : Mat n k) :
    stageGainFB A B = -(A⁻¹ * B.transpose) := by
  rw [matInv_eq]
  unfold stageGainFB cholSolveMat
  rw [Matrix.smul_mul]

lemma cholSolveVec_solves {k : ℕ} (A : Mat k k) (b : Vec k) (hd : A.det ≠ 0) :
    A.mulVec (cholSolveVec A b) = b := by
  unfold cholSolveVec
  rw [Matrix.mulVec_smul, Matrix.mulVec_mulVec, Matrix.mul_adjugate,
    Matrix.smul_mulVec_assoc, Matrix.one_mulVec, smul_smul,
    inv_mul_cancel₀ hd, one_smul]

lemma cholSolveMat_solves {k j : ℕ} (A : Mat k k) (B : Mat k j)
    (hd : A.det ≠ 0) : A * cholSolveMat A B = B := by
  unfold cholSolveMat
  rw [Matrix.mul_smul, ← Matrix.mul_assoc, Matrix.mul_adjugate,
    Matrix.smul_mul, Matrix.one_mul, smul_smul, inv_mul_cancel₀ hd, one_smul]

lemma det_ne_zero_of_choleskyOK :
    ∀ {k : ℕ} (A : Mat k k), choleskyOK A = true → A.det ≠ 0
  | 0, A, _ => by simp [Matrix.det_fin_zero]
  | _ + 1, A, h => ne_of_gt (det_pos_of_choleskyOK A h)

lemma lineSearch_first {n m : ℕ} (roll : ℚ → Cand n m)
    (acc : ℚ → Cand n m → Bool) :
    ∀ (l : List ℚ) (a : ℚ) (c : Cand n m),
      lineSearch roll acc l = some (a, c) →
      ∃ i : ℕ, l.get? i = some a ∧ c = roll a ∧ acc a c = true ∧
        ∀ j b, j < i → l.get? j = some b → acc b (roll b) = false
  | [], a, c => by simp [lineSearch]
  | x :: l, a, c => by
    intro h
    by_cases hx : acc x (roll x) = true
    · rw [lineSearch] at h
      rw [if_pos hx] at h
      obtain ⟨ha, hc⟩ : x = a ∧ roll x = c := by
        simpa using h
      refine ⟨0, by simp [ha], by rw [← hc, ha], by rw [← hc, ← ha]; exact hx, ?_⟩
      intro j b hj
      omega
    · rw [lineSearch] at h
      rw [if_neg hx] at h
      obtain ⟨i, h1, h2, h3, h4⟩ := lineSearch_first roll acc l a c h
      refine ⟨i + 1, by simpa using h1, h2, h3, ?_⟩
      intro j b hj hb
      match j with
      | 0 =>
        obtain hbx : x = b := by simpa using hb
        rw [← hbx]
        exact eq_false_of_ne_true hx
      | j + 1 =>
        exact h4 j b (by omega) (by simpa using hb)

lemma lineSearch_some_acc {n m : ℕ} (roll : ℚ → Cand n m)
    (acc : ℚ → Cand n m → Bool) (l : List ℚ) (a : ℚ) (c : Cand n m)
    (h : lineSearch roll acc l = some (a, c)) : acc a c = true :=
  (lineSearch_first roll acc l a c h).choose_spec.2.2.1

lemma accepted_improves (J Jc : ℚ) (dV : ℚ × ℚ) (alpha thre : ℚ)
    (hth : 0 ≤ thre) (h : accepted J Jc dV alpha thre = true) : 0 < J - Jc := by
  unfold accepted at h
  by_cases he : 0 < costUpdateExpected dV alpha
  · rw [if_pos he, decide_eq_true_eq] at h
    have hq : 0 < (J - Jc) / costUpdateExpected dV alpha := lt_of_le_of_lt hth h
    exact (div_pos_iff.mp hq).elim (fun p => p.1)
      (fun p => absurd p.2 (not_lt.mpr he.le))
  · rw [if_neg he, decide_eq_true_eq] at h
    exact h

/-! ### Claim theorems -/

/-- C1: In the backward pass, at every processed stage the regularized
pair `(Q̃uu, Q̃xu)` is chosen by `reg_type` (type 1:
`Q̃uu = Quu + λ·I`, `Q̃xu = Qxu`; type 2: both blocks recomputed from
`Ṽxx = Vxx + λ·I`), and when the Cholesky factorization of `Q̃uu`
succeeds the stage gains are `k = −Q̃uu⁻¹·Qu` and `K = −Q̃uu⁻¹·Q̃xuᵀ`
(equivalently, the exact solutions of `Q̃uu·k = −Qu` and
`Q̃uu·K = −Q̃xuᵀ`), and the backward recursion uses exactly these gains
at every stage it processes. -/
theorem ddp_C1 {n m : ℕ} (cfg : Configuration) (lam : ℚ) (d : Derivative n m)
    (Vx : Vec n) (Vxx : Mat n n)
    (hch : choleskyOK (regQ cfg lam d Vxx (calcQ cfg d Vx Vxx)).1 = true) :
    (regQ cfg lam d Vxx (calcQ cfg d Vx Vxx) =
      if cfg.reg_type = 1 then
        ((calcQ cfg d Vx Vxx).Quu + lam • (1 : Mat m m),
          (calcQ cfg d Vx Vxx).Qxu)
      else
        (d.Luu + d.Fu.transpose * (Vxx + lam • (1 : Mat n n)) * d.Fu,
          d.Lxu + d.Fx.transpose * (Vxx + lam • (1 : Mat n n)) * d.Fu)) ∧
    (stageGain cfg lam d Vx Vxx).k =
      -((regQ cfg lam d Vxx (calcQ cfg d Vx Vxx)).1⁻¹.mulVec
        (calcQ cfg d Vx Vxx).Qu) ∧
    (stageGain cfg lam d Vx Vxx).K =
      -((regQ cfg lam d Vxx (calcQ cfg d Vx Vxx)).1⁻¹ *
        (regQ cfg lam d Vxx (calcQ cfg d Vx Vxx)).2.transpose) ∧
    (regQ cfg lam d Vxx (calcQ cfg d Vx Vxx)).1.mulVec
        (stageGain cfg lam d Vx Vxx).k = -(calcQ cfg d Vx Vxx).Qu ∧
    (regQ cfg lam d Vxx (calcQ cfg d Vx Vxx)).1 *
        (stageGain cfg lam d Vx Vxx).K =
      -(regQ cfg lam d Vxx (calcQ cfg d Vx Vxx)).2.transpose ∧
    (∀ rest dV, backwardAux cfg lam (d :: rest) Vx Vxx dV =
      (backwardAux cfg lam rest
        (nextVx (calcQ cfg d Vx Vxx) (stageGain cfg lam d Vx Vxx))
        (nextVxx (calcQ cfg d Vx Vxx) (stageGain cfg lam d Vx Vxx))
        (dVstep (calcQ cfg d Vx Vxx) (stageGain cfg lam d Vx Vxx) dV)).map
        (fun p => (stageGain cfg lam d Vx Vxx :: p.1, p.2))) := by
  have hd : (regQ cfg lam d Vxx (calcQ cfg d Vx Vxx)).1.det ≠ 0 :=
    det_ne_zero_of_choleskyOK _ hch
  refine ⟨?_, ?_, ?_, ?_, ?_, ?_⟩
  · unfold regQ
    rfl
  · exact stageGainK_eq_inv _ _
  · exact stageGainFB_eq_inv _ _
  · show (regQ cfg lam d Vxx (calcQ cfg d Vx Vxx)).1.mulVec
      (-cholSolveVec (regQ cfg lam d Vxx (calcQ cfg d Vx Vxx)).1
        (calcQ cfg d Vx Vxx).Qu) = _
    rw [Matrix.mulVec_neg, cholSolveVec_solves _ _ hd]
  · show (regQ cfg lam d Vxx (calcQ cfg d Vx Vxx)).1 *
      (-cholSolveMat (regQ cfg lam d Vxx (calcQ cfg d Vx Vxx)).1
        (regQ cfg lam d Vxx (calcQ cfg d Vx Vxx)).2.transpose) = _
    rw [Matrix.mul_neg, cholSolveMat_solves _ _ hd]
  · intro rest dV
    exact backwardAux_cons_ok cfg lam d rest Vx Vxx dV hch

/-- Witness for C1 at the linear-quadratic instance: the regularized
`Q̃uu` there passes the factorization, and the computed feedforward gain
solves `Q̃uu·k = −Qu`. -/
theorem ddp_C1_witness :
    choleskyOK (regQ lqCfg 0 lqD lqVxx (calcQ lqCfg lqD lqVx lqVxx)).1 = true ∧
    (regQ lqCfg 0 lqD lqVxx (calcQ lqCfg lqD lqVx lqVxx)).1.mulVec
      (stageGain lqCfg 0 lqD lqVx lqVxx).k =
      -(calcQ lqCfg lqD lqVx lqVxx).Qu :=
  ⟨lq_chol, (ddp_C1 lqCfg 0 lqD lqVx lqVxx lq_chol).2.2.2.1⟩

/-- C2: When the backward pass fails (`Q̃uu` not positive definite at
some stage), the iteration performs no forward pass (all trajectory and
candidate buffers are untouched), sets
`δλ ← max(δλ·lambda_factor, lambda_factor)` and
`λ ← max(λ·δλ, lambda_min)`, appends a trace record, and the iteration
reports failure exactly when `λ > lambda_max`; the driver then returns
failure with the trace preserved, or retries the backward pass in the
next iteration (the final conjunct is the driver's dispatch on the
iteration result). -/
theorem ddp_C2 {n m : ℕ} (cfg : Configuration) (env : Env n m) (iter : ℕ)
    (st : SolverState n m) (hb : backwardOf cfg env st = none) :
    (procOnce cfg env iter st).2.x_list = st.x_list ∧
    (procOnce cfg env iter st).2.u_list = st.u_list ∧
    (procOnce cfg env iter st).2.cost_list = st.cost_list ∧
    (procOnce cfg env iter st).2.x_candidate_list = st.x_candidate_list ∧
    (procOnce cfg env iter st).2.u_candidate_list = st.u_candidate_list ∧
    (procOnce cfg env iter st).2.cost_candidate_list = st.cost_candidate_list ∧
    (procOnce cfg env iter st).2.dlambda =
      max (st.dlambda * cfg.lambda_factor) cfg.lambda_factor ∧
    (procOnce cfg env iter st).2.lambda =
      max (st.lambda * max (st.dlambda * cfg.lambda_factor) cfg.lambda_factor)
        cfg.lambda_min ∧
    (procOnce cfg env iter st).1 =
      (if cfg.lambda_max < (procOnce cfg env iter st).2.lambda then -1 else 0) ∧
    (procOnce cfg env iter st).2.trace_data_list =
      st.trace_data_list ++
        [{ iter := iter, cost := st.cost_list.sum,
           lambda := (procOnce cfg env iter st).2.lambda,
           dlambda := (procOnce cfg env iter st).2.dlambda }] ∧
    (∀ (fuel it : ℕ) (s : SolverState n m), solveLoop cfg env (fuel + 1) it s =
      (if (procOnce cfg env it s).1 = 1 then (true, (procOnce cfg env it s).2)
       else if (procOnce cfg env it s).1 = -1 then
         (false, (procOnce cfg env it s).2)
       else solveLoop cfg env fuel (it + 1) (procOnce cfg env it s).2)) := by
  refine ⟨?_, ?_, ?_, ?_, ?_, ?_, ?_, ?_, ?_, ?_, fun fuel it s => rfl⟩ <;>
  simp only [procOnce, hb, regIncrease]

/-- Witness for C2 at the overflow instance: the backward pass fails
there, the committed trajectory is untouched, and the iteration reports
failure (`λ` rises from `1` to `2 > lambda_max = 1`). -/
theorem ddp_C2_witness :
    backwardOf negCfg negEnv negSt = none ∧
    (procOnce negCfg negEnv 1 negSt).2.x_list = negSt.x_list ∧
    (procOnce negCfg negEnv 1 negSt).1 =
      (if negCfg.lambda_max < (procOnce negCfg negEnv 1 negSt).2.lambda
        then -1 else 0) :=
  ⟨neg_backward, (ddp_C2 negCfg negEnv 1 negSt neg_backward).1,
    (ddp_C2 negCfg negEnv 1 negSt neg_backward).2.2.2.2.2.2.2.2.1⟩

/-- C3: The line-search acceptance test uses
`ρ = ΔJ_act/ΔJ_exp` with `ΔJ_act = J − J̃` and
`ΔJ_exp = −(α·dV[0] + α²·dV[1])`, accepting iff
`ρ > cost_update_ratio_thre` when `ΔJ_exp > 0` and iff `ΔJ_act > 0`
otherwise; `dV` starts from `(0, 0)` in `backwardPass` and each
backward stage adds `kᵀ·Qu` to `dV[0]` and `½·kᵀ·Quu·k` to `dV[1]`. -/
theorem ddp_C3 {n m : ℕ} (cfg : Configuration) (lam : ℚ) (d : Derivative n m)
    (Vx : Vec n) (Vxx : Mat n n)
    (hch : choleskyOK (regQ cfg lam d Vxx (calcQ cfg d Vx Vxx)).1 = true) :
    (∀ J Jc : ℚ, ∀ dV : ℚ × ℚ, ∀ alpha thre : ℚ,
      accepted J Jc dV alpha thre = true ↔
        (if 0 < -(alpha * dV.1 + alpha ^ 2 * dV.2)
          then thre < (J - Jc) / -(alpha * dV.1 + alpha ^ 2 * dV.2)
          else 0 < J - Jc)) ∧
    (∀ (ds : List (Derivative n m)) (VxN : Vec n) (VxxN : Mat n n),
      backwardPass cfg lam ds VxN VxxN =
        (backwardAux cfg lam ds.reverse VxN VxxN (0, 0)).map
          (fun r => (r.1.reverse, r.2))) ∧
    (∀ (Q : QModel n m) (g : Gain n m) (dV : ℚ × ℚ), dVstep Q g dV =
      (dV.1 + Matrix.dotProduct g.k Q.Qu,
       dV.2 + 1 / 2 * Matrix.dotProduct g.k (Q.Quu.mulVec g.k))) ∧
    (∀ rest dV, backwardAux cfg lam (d :: rest) Vx Vxx dV =
      (backwardAux cfg lam rest
        (nextVx (calcQ cfg d Vx Vxx) (stageGain cfg lam d Vx Vxx))
        (nextVxx (calcQ cfg d Vx Vxx) (stageGain cfg lam d Vx Vxx))
        (dV.1 + Matrix.dotProduct (stageGain cfg lam d Vx Vxx).k
          (calcQ cfg d Vx Vxx).Qu,
         dV.2 + 1 / 2 * Matrix.dotProduct (stageGain cfg lam d Vx Vxx).k
          ((calcQ cfg d Vx Vxx).Quu.mulVec (stageGain cfg lam d Vx Vxx).k))).map
        (fun p => (stageGain cfg lam d Vx Vxx :: p.1, p.2))) := by
  refine ⟨?_, fun ds VxN VxxN => rfl, fun Q g dV => rfl, ?_⟩
  · intro J Jc dV alpha thre
    unfold accepted costUpdateExpected
    by_cases he : 0 < -(alpha * dV.1 + alpha ^ 2 * dV.2)
    · rw [if_pos he, if_pos he, decide_eq_true_eq]
    · rw [if_neg he, if_neg he, decide_eq_true_eq]
  · intro rest dV
    exact backwardAux_cons_ok cfg lam d rest Vx Vxx dV hch

/-- Witness for C3 at the linear-quadratic instance, extracting the
`dV`-initialization equation of that instance's backward pass. -/
theorem ddp_C3_witness :
    choleskyOK (regQ lqCfg 0 lqD lqVxx (calcQ lqCfg lqD lqVx lqVxx)).1 = true ∧
    backwardPass lqCfg 0 [lqD] lqVx lqVxx =
      (backwardAux lqCfg 0 [lqD].reverse lqVx lqVxx (0, 0)).map
        (fun r => (r.1.reverse, r.2)) :=
  ⟨lq_chol, (ddp_C3 lqCfg 0 lqD lqVx lqVxx lq_chol).2.1 [lqD] lqVx lqVxx⟩

/-- C4: The line search traverses the configured `alpha_list` in its
given order (each stored exponent mapped to its step size), runs one
forward rollout per `α`, accepts the first `α` that satisfies the test
and stops there; when no `α` is accepted the regularization is
increased exactly as on a backward-pass failure and the iteration
reports failure exactly when `λ > lambda_max`, upon which the driver
returns failure. -/
theorem ddp_C4 {n m : ℕ} (cfg : Configuration) (env : Env n m) (iter : ℕ)
    (st : SolverState n m) (gs : List (Gain n m)) (dV : ℚ × ℚ)
    (hb : backwardOf cfg env st = some (gs, dV))
    (hn : lineSearchOf cfg env st gs dV = none) :
    (lineSearchOf cfg env st gs dV =
      lineSearch (rollOf env st gs)
        (fun a c => accepted st.cost_list.sum c.costs.sum dV a
          cfg.cost_update_ratio_thre)
        (cfg.alpha_list.map env.alphaOf)) ∧
    (∀ (roll : ℚ → Cand n m) (acc : ℚ → Cand n m → Bool) (a : ℚ) (l : List ℚ),
      lineSearch roll acc (a :: l) =
        (if acc a (roll a) then some (a, roll a) else lineSearch roll acc l)) ∧
    (∀ (roll : ℚ → Cand n m) (acc : ℚ → Cand n m → Bool),
      lineSearch roll acc [] = none) ∧
    (∀ (roll : ℚ → Cand n m) (acc : ℚ → Cand n m → Bool) (l : List ℚ)
      (a : ℚ) (c : Cand n m), lineSearch roll acc l = some (a, c) →
      ∃ i : ℕ, l.get? i = some a ∧ c = roll a ∧ acc a c = true ∧
        ∀ j b, j < i → l.get? j = some b → acc b (roll b) = false) ∧
    (procOnce cfg env iter st).2.dlambda =
      max (st.dlambda * cfg.lambda_factor) cfg.lambda_factor ∧
    (procOnce cfg env iter st).2.lambda =
      max (st.lambda * max (st.dlambda * cfg.lambda_factor) cfg.lambda_factor)
        cfg.lambda_min ∧
    (procOnce cfg env iter st).1 =
      (if cfg.lambda_max < (procOnce cfg env iter st).2.lambda then -1 else 0) ∧
    (∀ (fuel it : ℕ) (s : SolverState n m), (procOnce cfg env it s).1 = -1 →
      solveLoop cfg env (fuel + 1) it s = (false, (procOnce cfg env it s).2)) := by
  refine ⟨rfl, fun roll acc a l => rfl, fun roll acc => rfl, lineSearch_first,
    ?_, ?_, ?_, ?_⟩
  · simp only [procOnce, hb, hn, regIncrease]
  · simp only [procOnce, hb, hn, regIncrease]
  · simp only [procOnce, hb, hn, regIncrease]
  · intro fuel it s hs
    show (if (procOnce cfg env it s).1 = 1 then (true, (procOnce cfg env it s).2)
      else if (procOnce cfg env it s).1 = -1 then
        (false, (procOnce cfg env it s).2)
      else solveLoop cfg env fuel (it + 1) (procOnce cfg env it s).2) =
      (false, (procOnce cfg env it s).2)
    rw [hs]
    norm_num

/-- Witness for C4 at the zero-horizon overflow instance: the backward
pass succeeds with no gains, every step size is rejected, and the
regularization is increased as on a backward failure. -/
theorem ddp_C4_witness :
    backwardOf negCfg negEnv zSt = some ([], (0, 0)) ∧
    lineSearchOf negCfg negEnv zSt [] (0, 0) = none ∧
    (procOnce negCfg negEnv 1 zSt).2.lambda =
      max (zSt.lambda * max (zSt.dlambda * negCfg.lambda_factor)
        negCfg.lambda_factor) negCfg.lambda_min :=
  ⟨z_backward, z_ls,
    (ddp_C4 negCfg negEnv 1 zSt [] (0, 0) z_backward z_ls).2.2.2.2.2.1⟩

/-- C5: For `0 < α ≤ 1` the forward pass starts its candidate
trajectory at the supplied current state, applies
`ũ[t] = u[t] + α·k[t] + K[t]·(x̃[t] − x[t])` and
`x̃[t+1] = f(x̃[t], ũ[t])` at every stage, and the candidate cost is
the sum of the per-stage running costs plus the terminal cost at
`x̃[N]`. -/
theorem ddp_C5 {n m : ℕ} (pr : Problem n m) (xs : List (Vec n))
    (us : List (Vec m)) (gs : List (Gain n m)) (alpha : ℚ) (x0 : Vec n)
    (N : ℕ) (_h0 : 0 < alpha) (_h1 : alpha ≤ 1) :
    fpState pr xs us gs alpha x0 0 = x0 ∧
    (∀ t : ℕ, fpInput xs us gs alpha (fpState pr xs us gs alpha x0 t) t =
      us.getD t 0 + alpha • (gs.getD t ⟨0, 0⟩).k +
        (gs.getD t ⟨0, 0⟩).K.mulVec
          (fpState pr xs us gs alpha x0 t - xs.getD t 0)) ∧
    (∀ t : ℕ, fpState pr xs us gs alpha x0 (t + 1) =
      pr.stateEq (fpState pr xs us gs alpha x0 t)
        (fpInput xs us gs alpha (fpState pr xs us gs alpha x0 t) t)) ∧
    (forwardPass pr xs us gs alpha x0 N).xs.getD 0 0 = x0 ∧
    (forwardPass pr xs us gs alpha x0 N).costs.sum =
      (∑ t : Fin N, pr.runningCost (fpState pr xs us gs alpha x0 t)
        (fpInput xs us gs alpha (fpState pr xs us gs alpha x0 t) t)) +
      pr.terminalCost (fpState pr xs us gs alpha x0 N) := by
  refine ⟨rfl, fun t => rfl, fun t => rfl, ?_, ?_⟩
  · show (List.ofFn fun t : Fin (N + 1) =>
      fpState pr xs us gs alpha x0 t).getD 0 0 = x0
    rw [List.ofFn_succ]
    rfl
  · show ((List.ofFn fun t : Fin N =>
        pr.runningCost (fpState pr xs us gs alpha x0 t)
          (fpInput xs us gs alpha (fpState pr xs us gs alpha x0 t) t)) ++
      [pr.terminalCost (fpState pr xs us gs alpha x0 N)]).sum = _
    rw [List.sum_append, List.sum_ofFn]
    simp

/-- Witness for C5 at `α = 1` on the linear-quadratic problem. -/
theorem ddp_C5_witness :
    ((0 : ℚ) < 1 ∧ (1 : ℚ) ≤ 1) ∧
    fpState lqProb [] [] [] 1 vone 0 = vone :=
  ⟨⟨by norm_num, le_refl 1⟩, (ddp_C5 lqProb [] [] [] 1 vone 0 (by norm_num)
    (le_refl 1)).1⟩

/-- C6: Convergence checks run only on an accepted step: the iteration
terminates successfully iff
`k_rel_norm < k_rel_norm_thre ∧ λ < lambda_thre` (with the decreased
`λ`) or `|ΔJ_act| < cost_update_thre`; an accepted step strictly
improves the cost whenever the acceptance-ratio threshold is
nonnegative; and once the iteration budget is exhausted
(`iter ≥ max_iter`, i.e. fuel `0`) the solve returns success with the
current (best) trajectory. -/
theorem ddp_C6 {n m : ℕ} (cfg : Configuration) (env : Env n m) (iter : ℕ)
    (st : SolverState n m) (gs : List (Gain n m)) (dV : ℚ × ℚ) (a : ℚ)
    (c : Cand n m) (hb : backwardOf cfg env st = some (gs, dV))
    (hls : lineSearchOf cfg env st gs dV = some (a, c))
    (hth : 0 ≤ cfg.cost_update_ratio_thre) :
    (procOnce cfg env iter st).1 =
      (if (kRelNorm env.normInput (gs.map Gain.k) c.us < cfg.k_rel_norm_thre ∧
          (regDecrease cfg st.lambda st.dlambda).1 < cfg.lambda_thre) ∨
        |st.cost_list.sum - c.costs.sum| < cfg.cost_update_thre
       then 1 else 0) ∧
    0 < st.cost_list.sum - c.costs.sum ∧
    (∀ (it : ℕ) (s : SolverState n m), solveLoop cfg env 0 it s = (true, s)) := by
  refine ⟨?_, ?_, fun it s => rfl⟩
  · simp only [procOnce, hb, hls]
  · have hacc := lineSearch_some_acc _ _ _ _ _ hls
    exact accepted_improves _ _ _ _ _ hth hacc

/-- Witness for C6 at the linear-quadratic instance: its line search
accepts `α = 1` and the accepted step strictly decreases the cost. -/
theorem ddp_C6_witness :
    lineSearchOf lqCfg lqEnv lqSt [lqGain] lqdV =
      some (1, rollOf lqEnv lqSt [lqGain] 1) ∧
    0 < lqSt.cost_list.sum - (rollOf lqEnv lqSt [lqGain] 1).costs.sum :=
  ⟨lq_ls, (ddp_C6 lqCfg lqEnv 1 lqSt [lqGain] lqdV 1
    (rollOf lqEnv lqSt [lqGain] 1) lq_backward lq_ls
    (le_of_eq rfl)).2.1⟩

lemma regDecrease_mem (cfg : Configuration) (lam dlam : ℚ) :
    (regDecrease cfg lam dlam).1 = 0 ∨
      cfg.lambda_min ≤ (regDecrease cfg lam dlam).1 := by
  by_cases h : lam * min (dlam / cfg.lambda_factor) (1 / cfg.lambda_factor) <
      cfg.lambda_min
  · left
    simp only [regDecrease]
    rw [if_pos h]
  · right
    simp only [regDecrease]
    rw [if_neg h]
    exact not_lt.mp h

lemma procOnce_lambda_mem {n m : ℕ} (cfg : Configuration) (env : Env n m)
    (iter : ℕ) (st : SolverState n m) :
    (procOnce cfg env iter st).2.lambda = 0 ∨
      cfg.lambda_min ≤ (procOnce cfg env iter st).2.lambda := by
  rcases hb : backwardOf cfg env st with _ | ⟨gs, dV⟩
  · right
    simp only [procOnce, hb, regIncrease]
    exact le_max_right _ _
  · rcases hls : lineSearchOf cfg env st gs dV with _ | ⟨a, c⟩
    · right
      simp only [procOnce, hb, hls, regIncrease]
      exact le_max_right _ _
    · have hm := regDecrease_mem cfg st.lambda st.dlambda
      simpa only [procOnce, hb, hls] using hm

lemma solveLoop_succ {n m : ℕ} (cfg : Configuration) (env : Env n m)
    (fuel it : ℕ) (st : SolverState n m) :
    solveLoop cfg env (fuel + 1) it st =
      (if (procOnce cfg env it st).1 = 1 then (true, (procOnce cfg env it st).2)
       else if (procOnce cfg env it st).1 = -1 then
         (false, (procOnce cfg env it st).2)
       else solveLoop cfg env fuel (it + 1) (procOnce cfg env it st).2) := rfl

lemma solveLoop_lambda_mem {n m : ℕ} (cfg : Configuration) (env : Env n m)
    (fuel : ℕ) : ∀ (it : ℕ) (st : SolverState n m),
    (st.lambda = 0 ∨ cfg.lambda_min ≤ st.lambda) →
    ((solveLoop cfg env fuel it st).2.lambda = 0 ∨
      cfg.lambda_min ≤ (solveLoop cfg env fuel it st).2.lambda) := by
  induction fuel with
  | zero => exact fun it st h => h
  | succ fuel ih =>
    intro it st h
    rw [solveLoop_succ]
    by_cases e1 : (procOnce cfg env it st).1 = 1
    · rw [if_pos e1]
      exact procOnce_lambda_mem cfg env it st
    · rw [if_neg e1]
      by_cases e2 : (procOnce cfg env it st).1 = -1
      · rw [if_pos e2]
        exact procOnce_lambda_mem cfg env it st
      · rw [if_neg e2]
        exact ih (it + 1) _ (procOnce_lambda_mem cfg env it st)

/-- C7 (amended): Throughout every solve the regularization coefficient
stays in `{0} ∪ [lambda_min, ∞)` (given that it starts there): every
increase yields at least `lambda_min`, and every decrease whose result
falls below `lambda_min` clamps `λ` to exactly `0`.  The claim's upper
bound `lambda_max` does not hold at all times — the final increase of a
failing solve leaves `λ > lambda_max` (see the counterexample). -/
theorem ddp_C7 {n m : ℕ} (cfg : Configuration) (env : Env n m) (iter : ℕ)
    (st : SolverState n m) :
    ((procOnce cfg env iter st).2.lambda = 0 ∨
      cfg.lambda_min ≤ (procOnce cfg env iter st).2.lambda) ∧
    (∀ lam dlam : ℚ, cfg.lambda_min ≤ (regIncrease cfg lam dlam).1) ∧
    (∀ lam dlam : ℚ,
      lam * min (dlam / cfg.lambda_factor) (1 / cfg.lambda_factor) <
        cfg.lambda_min → (regDecrease cfg lam dlam).1 = 0) ∧
    (∀ lam dlam : ℚ, (regDecrease cfg lam dlam).1 = 0 ∨
      cfg.lambda_min ≤ (regDecrease cfg lam dlam).1) ∧
    (∀ (fuel it : ℕ) (s : SolverState n m),
      (s.lambda = 0 ∨ cfg.lambda_min ≤ s.lambda) →
      ((solveLoop cfg env fuel it s).2.lambda = 0 ∨
        cfg.lambda_min ≤ (solveLoop cfg env fuel it s).2.lambda)) := by
  refine ⟨procOnce_lambda_mem cfg env iter st, fun lam dlam => le_max_right _ _,
    ?_, regDecrease_mem cfg, solveLoop_lambda_mem cfg env⟩
  intro lam dlam h
  simp only [regDecrease]
  rw [if_pos h]

/-- Counterexample for C7 as stated: at the overflow instance the solve
ends with `λ = 2 ∉ {0} ∪ [lambda_min, lambda_max] = {0} ∪ [1/2, 1]`:
the final regularization increase exceeds `lambda_max` before the solve
reports failure. -/
theorem ddp_C7_cex :
    ¬((solve negCfg negEnv 0 [0]).2.lambda = 0 ∨
      (negCfg.lambda_min ≤ (solve negCfg negEnv 0 [0]).2.lambda ∧
        (solve negCfg negEnv 0 [0]).2.lambda ≤ negCfg.lambda_max)) := by
  intro h
  rw [neg_solve.2] at h
  revert h
  norm_num [negCfg]

/-- Witness for C7 at the linear-quadratic instance, whose initial
`λ = 0` lies in the invariant set. -/
theorem ddp_C7_witness :
    (lqSt.lambda = 0 ∨ lqCfg.lambda_min ≤ lqSt.lambda) ∧
    ((solveLoop lqCfg lqEnv 0 1 lqSt).2.lambda = 0 ∨
      lqCfg.lambda_min ≤ (solveLoop lqCfg lqEnv 0 1 lqSt).2.lambda) :=
  ⟨Or.inl rfl, (ddp_C7 lqCfg lqEnv 1 lqSt).2.2.2.2 0 1 lqSt (Or.inl rfl)⟩

lemma alphaDefault : linSpaced 11 0 (-3) =
    [0, -3/10, -3/5, -9/10, -6/5, -3/2, -9/5, -21/10, -12/5, -27/10, -3] := by
  norm_num [linSpaced, List.range_succ]

/-- C8: The default `alpha_list` holds exactly 11 entries — the base-10
exponents `LinSpaced(11, 0, −3)` of the line-search step sizes, an
arithmetic progression from `0` down to `−3` with step `−3/10`, so that
the induced schedule `10^e` is geometric from `1` down to `10⁻³` — and
the line search consumes the configured list in its given order. -/
theorem ddp_C8 :
    defaultConfig.alpha_list = linSpaced 11 0 (-3) ∧
    defaultConfig.alpha_list.length = 11 ∧
    defaultConfig.alpha_list.get? 0 = some 0 ∧
    defaultConfig.alpha_list.get? 10 = some (-3) ∧
    (∀ i : Fin 10, defaultConfig.alpha_list.getD (i.val + 1) 0 =
      defaultConfig.alpha_list.getD i.val 0 - 3 / 10) ∧
    (∀ (k j : ℕ) (cfg : Configuration) (env : Env k j)
      (st : SolverState k j) (gs : List (Gain k j)) (dV : ℚ × ℚ),
      lineSearchOf cfg env st gs dV =
        lineSearch (rollOf env st gs)
          (fun a c => accepted st.cost_list.sum c.costs.sum dV a
            cfg.cost_update_ratio_thre)
          (cfg.alpha_list.map env.alphaOf)) := by
  have hd : defaultConfig.alpha_list = linSpaced 11 0 (-3) := rfl
  refine ⟨hd, ?_, ?_, ?_, ?_, fun k j cfg env st gs dV => rfl⟩
  · rw [hd, alphaDefault]
    rfl
  · rw [hd, alphaDefault]
    rfl
  · rw [hd, alphaDefault]
    rfl
  · intro i
    rw [hd, alphaDefault]
    fin_cases i <;> norm_num [List.getD_cons_zero, List.getD_cons_succ]

/-- C9: The second-order dynamics tensors `Fxx`, `Fuu`, `Fxu` of the
per-stage cache are filled — with exactly `n` slices each (their slice
shapes `n×n`, `m×m`, `n×m` are fixed by their types) — precisely when
`use_state_eq_second_derivative` is enabled, and are empty otherwise;
`Derivative::setStateDim` always resizes the three tensors to exactly
`state_dim` slices. -/
theorem ddp_C9 {n m : ℕ} (cfg : Configuration) (pr : Problem n m)
    (x : Vec n) (u : Vec m) (d : Derivative n m) (sd : ℕ) :
    (calcDerivative cfg pr x u).Fxx.length =
      (if cfg.use_state_eq_second_derivative then n else 0) ∧
    (calcDerivative cfg pr x u).Fuu.length =
      (if cfg.use_state_eq_second_derivative then n else 0) ∧
    (calcDerivative cfg pr x u).Fxu.length =
      (if cfg.use_state_eq_second_derivative then n else 0) ∧
    (calcDerivative cfg pr x u).Fxx =
      (if cfg.use_state_eq_second_derivative then
        List.ofFn (pr.stateEqDerivXX x u) else []) ∧
    (calcDerivative cfg pr x u).Fuu =
      (if cfg.use_state_eq_second_derivative then
        List.ofFn (pr.stateEqDerivUU x u) else []) ∧
    (calcDerivative cfg pr x u).Fxu =
      (if cfg.use_state_eq_second_derivative then
        List.ofFn (pr.stateEqDerivXU x u) else []) ∧
    (d.setStateDim sd).Fxx.length = sd ∧
    (d.setStateDim sd).Fuu.length = sd ∧
    (d.setStateDim sd).Fxu.length = sd := by
  refine ⟨?_, ?_, ?_, rfl, rfl, rfl, ?_, ?_, ?_⟩
  · by_cases hf : cfg.use_state_eq_second_derivative <;>
      simp [calcDerivative, hf]
  · by_cases hf : cfg.use_state_eq_second_derivative <;>
      simp [calcDerivative, hf]
  · by_cases hf : cfg.use_state_eq_second_derivative <;>
      simp [calcDerivative, hf]
  · simp only [Derivative.setStateDim, listResize, List.length_append,
      List.length_take, List.length_replicate]
    omega
  · simp only [Derivative.setStateDim, listResize, List.length_append,
      List.length_take, List.length_replicate]
    omega
  · simp only [Derivative.setStateDim, listResize, List.length_append,
      List.length_take, List.length_replicate]
    omega

/-- C10: The committed trajectory is updated exactly on an accepted
iteration, where it becomes the accepted candidate rollout (which the
forward pass wrote into the candidate buffers); on a rejected iteration
— backward-pass failure or no accepted step size — the committed
trajectory (states, inputs, per-stage costs) is unchanged. -/
theorem ddp_C10 {n m : ℕ} (cfg : Configuration) (env : Env n m) (iter : ℕ)
    (st : SolverState n m) :
    ((procOnce cfg env iter st).2.x_list,
     (procOnce cfg env iter st).2.u_list,
     (procOnce cfg env iter st).2.cost_list) =
      (match backwardOf cfg env st with
       | none => (st.x_list, st.u_list, st.cost_list)
       | some (gs, dV) =>
         match lineSearchOf cfg env st gs dV with
         | none => (st.x_list, st.u_list, st.cost_list)
         | some (_, c) => (c.xs, c.us, c.costs)) ∧
    (∀ (gs : List (Gain n m)) (dV : ℚ × ℚ) (a : ℚ) (c : Cand n m),
      backwardOf cfg env st = some (gs, dV) →
      lineSearchOf cfg env st gs dV = some (a, c) →
      (procOnce cfg env iter st).2.x_candidate_list = c.xs ∧
      (procOnce cfg env iter st).2.u_candidate_list = c.us ∧
      (procOnce cfg env iter st).2.cost_candidate_list = c.costs) := by
  constructor
  · rcases hb : backwardOf cfg env st with _ | ⟨gs, dV⟩
    · simp only [procOnce, hb]
    · rcases hls : lineSearchOf cfg env st gs dV with _ | ⟨a, c⟩
      · rcases hlast : (List.map env.alphaOf cfg.alpha_list).getLast? with _ | b <;>
          simp only [procOnce, hb, hls, hlast]
      · simp only [procOnce, hb, hls]
  · intro gs dV a c hb hls
    refine ⟨?_, ?_, ?_⟩ <;> simp only [procOnce, hb, hls]

end NOC
